import Mathlib

/-!
# Verification of the NADAC top price change report generator

A shallow embedding of `src/capital-rx/src/report.py` and proofs of the
specified properties of its streaming top-N selection algorithm.

Modelling choices:
* A CSV row (`csv.DictReader` output) is a `Record` of string fields.
* Python `float` values are modelled as exact rationals `ℚ`; `float(s)`
  conversion is modelled by `py_float?` on plain decimal literals, returning
  `none` exactly when the conversion would raise `ValueError`.
* A Python `heapq` min-heap of `(float, str)` tuples is modelled as a list
  kept sorted in ascending tuple order (`entlt`, the Python tuple `<`).
  This representation is observationally equivalent to the binary-heap
  array for every operation the program performs: `heap[0]` is the head,
  `len` is the length, the linear membership scan of `in_heap` is list
  membership, and repeated `heappop` drains in ascending sorted order.
* Fallible statements (`IndexError` from `heap[0]` on an empty list,
  `ValueError` from `float`) are modelled in `Except String`.
-/

unseal Rat.sub Rat.add Rat.mul Rat.inv

namespace NadacReport

/-- One row of the NADAC comparison CSV, with the `FIELD_NAMES` of
`report.py` (all fields are delimited text). -/
structure Record where
  ndc_desc : String
  ndc : String
  old_price : String
  new_price : String
  «class» : String
  pct_change : String
  reason : String
  start_date : String
  end_date : String
  effective_date : String

/-- A heap entry: the `(change-magnitude, ndc_desc)` tuple pushed by
`build_heaps_from_file`. -/
abbrev Entry : Type := ℚ × String

def NEWLINE : String := "\n"

def REPORT_TYPE_INCREASES : String := "increases"

def REPORT_TYPE_DECREASES : String := "decreases"

/-- The digits of a list of characters read as a base-10 natural number,
`none` if any character is not a digit. -/
def dec_digits? (cs : List Char) : Option ℕ :=
  if cs.all Char.isDigit then
    some (cs.foldl (fun n c => 10 * n + (c.toNat - 48)) 0)
  else none

/-- Model of Python `float(s)` restricted to plain decimal literals
(optional sign, integer digits, optional point and fraction digits):
`none` models `ValueError`, `some q` the exact value of the literal. -/
def py_float? (s : String) : Option ℚ :=
  let cs := s.data
  let signed : Bool × List Char :=
    match cs with
    | '-' :: rest => (true, rest)
    | '+' :: rest => (false, rest)
    | _ => (false, cs)
  let mag : Option ℚ :=
    match signed.2.splitOn '.' with
    | [a] =>
        if a.isEmpty then none
        else (dec_digits? a).map (fun n => (n : ℚ))
    | [a, b] =>
        if a.isEmpty && b.isEmpty then none
        else
          match dec_digits? a, dec_digits? b with
          | some x, some y => some ((x : ℚ) + (y : ℚ) / (10 : ℚ) ^ b.length)
          | _, _ => none
    | _ => none
  mag.map (fun m => if signed.1 then -m else m)

/-- Python `s.endswith(suffix)`: a character-suffix test. -/
def ends_with (s suffix : String) : Bool :=
  suffix.data.isSuffixOf s.data

/-- Python string `<`: lexicographic comparison of code points, a strict
prefix comparing smaller. -/
def chars_lt : List Char → List Char → Bool
  | [], [] => false
  | [], _ :: _ => true
  | _ :: _, [] => false
  | a :: as, b :: bs => if a < b then true else if b < a then false else chars_lt as bs

/-- Python tuple comparison `(a₁, a₂) < (b₁, b₂)` on `(float, str)` pairs:
lexicographic, the order `heapq` uses on the pushed entries. -/
def entlt (x y : Entry) : Prop :=
  x.1 < y.1 ∨ (x.1 = y.1 ∧ chars_lt x.2.data y.2.data = true)

instance : DecidableRel entlt := fun x y =>
  inferInstanceAs (Decidable (x.1 < y.1 ∨ (x.1 = y.1 ∧ chars_lt x.2.data y.2.data = true)))

/-! ### Order lemmas for the tuple comparison -/

theorem chars_lt_irrefl (as : List Char) : chars_lt as as = false := by
  induction as with
  | nil => rfl
  | cons a t ih => simp [chars_lt, lt_irrefl, ih]

theorem chars_lt_trans {as bs cs : List Char} (h₁ : chars_lt as bs = true)
    (h₂ : chars_lt bs cs = true) : chars_lt as cs = true := by
  induction as generalizing bs cs with
  | nil =>
    cases bs with
    | nil => simp [chars_lt] at h₁
    | cons b bt =>
      cases cs with
      | nil => simp [chars_lt] at h₂
      | cons c ct => rfl
  | cons a t ih =>
    cases bs with
    | nil => simp [chars_lt] at h₁
    | cons b bt =>
      cases cs with
      | nil => simp [chars_lt] at h₂
      | cons c ct =>
        by_cases hab : a < b
        · by_cases hbc : b < c
          · simp [chars_lt, lt_trans hab hbc]
          · by_cases hcb : c < b
            · simp [chars_lt, hbc, hcb] at h₂
            · have : b = c := le_antisymm (not_lt.mp hcb) (not_lt.mp hbc)
              simp [chars_lt, this ▸ hab]
        · by_cases hba : b < a
          · simp [chars_lt, hab, hba] at h₁
          · have hEq : a = b := le_antisymm (not_lt.mp hba) (not_lt.mp hab)
            subst hEq
            by_cases hbc : a < c
            · simp [chars_lt, hbc]
            · by_cases hcb : c < a
              · simp [chars_lt, hbc, hcb] at h₂
              · have hEq2 : a = c := le_antisymm (not_lt.mp hcb) (not_lt.mp hbc)
                subst hEq2
                simp [chars_lt, lt_irrefl] at h₁ h₂ ⊢
                exact ih h₁ h₂

theorem chars_lt_cases (as bs : List Char) :
    chars_lt as bs = true ∨ as = bs ∨ chars_lt bs as = true := by
  induction as generalizing bs with
  | nil =>
    cases bs with
    | nil => exact Or.inr (Or.inl rfl)
    | cons b bt => exact Or.inl rfl
  | cons a t ih =>
    cases bs with
    | nil => exact Or.inr (Or.inr rfl)
    | cons b bt =>
      rcases lt_trichotomy a b with h | h | h
      · exact Or.inl (by simp [chars_lt, h])
      · subst h
        rcases ih bt with h' | h' | h'
        · exact Or.inl (by simp [chars_lt, lt_irrefl, h'])
        · exact Or.inr (Or.inl (by rw [h']))
        · exact Or.inr (Or.inr (by simp [chars_lt, lt_irrefl, h']))
      · exact Or.inr (Or.inr (by simp [chars_lt, h]))

theorem string_data_inj {s t : String} (h : s.data = t.data) : s = t := by
  cases s
  cases t
  exact congrArg String.mk h

theorem entlt_irrefl (x : Entry) : ¬ entlt x x := by
  rintro (h | ⟨-, h⟩)
  · exact lt_irrefl _ h
  · rw [chars_lt_irrefl] at h
    exact Bool.false_ne_true h

theorem entlt_ne {x y : Entry} (h : entlt x y) : x ≠ y := by
  rintro rfl
  exact entlt_irrefl x h

theorem entlt_trans {x y z : Entry} (h₁ : entlt x y) (h₂ : entlt y z) : entlt x z := by
  rcases h₁ with h₁ | ⟨e₁, h₁⟩
  · rcases h₂ with h₂ | ⟨e₂, h₂⟩
    · exact Or.inl (lt_trans h₁ h₂)
    · exact Or.inl (lt_of_lt_of_eq h₁ e₂)
  · rcases h₂ with h₂ | ⟨e₂, h₂⟩
    · exact Or.inl (lt_of_eq_of_lt e₁ h₂)
    · exact Or.inr ⟨e₁.trans e₂, chars_lt_trans h₁ h₂⟩

theorem entlt_connex {x y : Entry} (h : x ≠ y) : entlt x y ∨ entlt y x := by
  rcases lt_trichotomy x.1 y.1 with h₁ | h₁ | h₁
  · exact Or.inl (Or.inl h₁)
  · rcases chars_lt_cases x.2.data y.2.data with hc | hc | hc
    · exact Or.inl (Or.inr ⟨h₁, hc⟩)
    · exact absurd (Prod.ext h₁ (string_data_inj hc)) h
    · exact Or.inr (Or.inr ⟨h₁.symm, hc⟩)
  · exact Or.inr (Or.inl h₁)

theorem entlt_fst_le {x y : Entry} (h : entlt x y) : x.1 ≤ y.1 := by
  rcases h with h | ⟨e, -⟩
  · exact le_of_lt h
  · exact le_of_eq e

/-! ### The heap model -/

/-- The linear duplicate scan `in_heap` of `report.py`. -/
def in_heap : List Entry → Entry → Bool
  | [], _ => false
  | e :: rest, item => if e = item then true else in_heap rest item

/-- `heapq.heappush heap item` on the sorted-list heap representation:
ordered insertion. -/
def hpush (item : Entry) : List Entry → List Entry
  | [] => [item]
  | top :: rest => if entlt item top then item :: top :: rest else top :: hpush item rest

/-- `heapq.heappushpop heap item` (return value discarded, as in the source):
if the heap is nonempty and its minimum compares below `item`, the minimum
is removed and `item` inserted, else the heap is unchanged. -/
def hpushpop (heap : List Entry) (item : Entry) : List Entry :=
  match heap with
  | [] => []
  | top :: rest => if entlt top item then hpush item rest else top :: rest

theorem in_heap_iff {heap : List Entry} {item : Entry} :
    in_heap heap item = true ↔ item ∈ heap := by
  induction heap with
  | nil => simp [in_heap]
  | cons e rest ih =>
    by_cases h : e = item
    · simp [in_heap, h]
    · simp [in_heap, h, ih, eq_comm]
      intro he
      exact absurd he.symm h

theorem hpush_mem {item y : Entry} {l : List Entry} :
    y ∈ hpush item l ↔ y = item ∨ y ∈ l := by
  induction l with
  | nil => simp [hpush]
  | cons top rest ih =>
    by_cases h : entlt item top
    · simp [hpush, h]
    · simp [hpush, h, ih]
      tauto

theorem hpush_length {item : Entry} {l : List Entry} :
    (hpush item l).length = l.length + 1 := by
  induction l with
  | nil => rfl
  | cons top rest ih =>
    by_cases h : entlt item top
    · simp [hpush, h]
    · simp [hpush, h, ih]

theorem hpush_sorted {item : Entry} {l : List Entry}
    (hs : List.Pairwise entlt l) (hx : item ∉ l) :
    List.Pairwise entlt (hpush item l) := by
  induction l with
  | nil => simp [hpush]
  | cons top rest ih =>
    rcases List.pairwise_cons.mp hs with ⟨htop, hrest⟩
    by_cases h : entlt item top
    · rw [hpush, if_pos h]
      refine List.pairwise_cons.mpr ⟨?_, hs⟩
      intro y hy
      rcases List.mem_cons.mp hy with rfl | hy'
      · exact h
      · exact entlt_trans h (htop y hy')
    · rw [hpush, if_neg h]
      have hne : item ≠ top := fun e => hx (e ▸ List.mem_cons_self top rest)
      have htoplt : entlt top item := (entlt_connex hne).resolve_left h
      refine List.pairwise_cons.mpr ⟨?_, ih hrest (fun hm => hx (List.mem_cons_of_mem top hm))⟩
      intro y hy
      rcases hpush_mem.mp hy with rfl | hy'
      · exact htoplt
      · exact htop y hy'

/-! ### The record-processing loop of `build_heaps_from_file` -/

/-- The per-direction body of the record loop in `build_heaps_from_file`:
the duplicate scan, the capacity test `len(heap) < count`, and otherwise
the read of `heap[0]` (an `IndexError` on an empty heap) followed by the
`change > top_change` comparison guarding `heappushpop`. -/
def update_heap (count : ℕ) (heap : List Entry) (item : Entry) :
    Except String (List Entry) :=
  if in_heap heap item then .ok heap
  else if heap.length < count then .ok (hpush item heap)
  else
    match heap with
    | [] => .error "IndexError: list index out of range"
    | top :: _ => if item.1 > top.1 then .ok (hpushpop heap item) else .ok heap

/-- The two direction blocks of the record loop, applied to a computed
`change`: the increases heap is updated when `change > 0` with item
`(change, ndc_desc)`, the decreases heap when `change < 0` with item
`(-change, ndc_desc)`; an error from either update aborts. -/
def apply_change (count : ℕ) (st : List Entry × List Entry) (desc : String)
    (change : ℚ) : Except String (List Entry × List Entry) :=
  match (if change > 0 then update_heap count st.1 (change, desc) else .ok st.1) with
  | .error e => .error e
  | .ok inc =>
    match (if change < 0 then update_heap count st.2 (-change, desc) else .ok st.2) with
    | .error e => .error e
    | .ok dec => .ok (inc, dec)

/-- One iteration of the `for entry in reader` loop of
`build_heaps_from_file`: the year suffix filter, the computation
`change = float(new_price) - float(old_price)` (a `ValueError` if either
conversion fails), then the two direction blocks via `apply_change`. -/
def build_heaps_step (year : ℤ) (count : ℕ) (st : List Entry × List Entry)
    (entry : Record) : Except String (List Entry × List Entry) :=
  if ends_with entry.effective_date (toString year) then
    match py_float? entry.new_price, py_float? entry.old_price with
    | some newp, some oldp => apply_change count st entry.ndc_desc (newp - oldp)
    | _, _ => .error "ValueError: could not convert string to float"
  else .ok st

/-- The `for entry in reader` loop of `build_heaps_from_file`. -/
def build_heaps_loop (year : ℤ) (count : ℕ) :
    List Record → List Entry × List Entry → Except String (List Entry × List Entry)
  | [], st => .ok st
  | entry :: rest, st =>
    match build_heaps_step year count st entry with
    | .error e => .error e
    | .ok st' => build_heaps_loop year count rest st'

/-- `build_heaps_from_file(reader, year, count)`: fold the loop body over the
record stream, starting from two empty heaps. -/
def build_heaps_from_file (rows : List Record) (year : ℤ) (count : ℕ) :
    Except String (List Entry × List Entry) :=
  build_heaps_loop year count rows ([], [])

/-! ### The report renderer -/

/-- Python `round` of an exact rational to an integer: round half to even. -/
def round_half_even (q : ℚ) : ℤ :=
  let f : ℤ := q.num.fdiv (q.den : ℤ)
  let r : ℚ := q - (f : ℚ)
  if r < 1/2 then f
  else if 1/2 < r then f + 1
  else if f % 2 = 0 then f else f + 1

/-- A natural number below 100 printed as exactly two digits. -/
def pad_two (n : ℕ) : String :=
  if n < 10 then "0" ++ toString n else toString n

/-- `abs(round(change, 2))` followed by the fixed 2-decimal format
`{change:.2f}`: the rounded cents printed as integer part, point, and a
two-digit fraction. -/
def format_change (q : ℚ) : String :=
  let cents : ℕ := (round_half_even (q * 100)).natAbs
  toString (cents / 100) ++ "." ++ pad_two (cents % 100)

/-- One body line of `generate_partial_report`:
the f-string `{sign}${change:.2f}: {ndc_desc}` with `NEWLINE` appended. -/
def format_line (sign : String) (e : Entry) : String :=
  sign ++ "$" ++ format_change e.1 ++ ": " ++ e.2 ++ NEWLINE

/-- `generate_partial_report(heap, year, count, type)`: the header line, then
the heap drained by `heappop` (ascending tuple order — on the sorted-list
representation the list itself), each entry formatted, and the drained line
list reversed (`body_lines[::-1]`) before joining. -/
def generate_partial_report (heap : List Entry) (year : ℤ) (count : ℕ)
    (type : String) : String :=
  let header := "Top " ++ toString count ++ " NADAC per unit price " ++ type
      ++ " of " ++ toString year ++ ":"
  let sign := if type = REPORT_TYPE_DECREASES then "-" else ""
  let body_lines := heap.map (format_line sign)
  let body := String.join body_lines.reverse
  header ++ NEWLINE ++ body

/-- `generate_nadac_top_price_change_report(year, count)`, with the record
stream passed explicitly (the CSV reader is an external collaborator owned
by `data.py`). -/
def generate_nadac_top_price_change_report (rows : List Record) (year : ℤ)
    (count : ℕ) : Except String String :=
  match build_heaps_from_file rows year count with
  | .error e => .error e
  | .ok (increases_heap, decreases_heap) =>
    .ok (generate_partial_report increases_heap year count REPORT_TYPE_INCREASES
      ++ "\n" ++ generate_partial_report decreases_heap year count REPORT_TYPE_DECREASES)

/-! ### Invariants of the accumulation loop -/

/-- The guarantee the loop gives one candidate entry `x` against a heap:
either `x` is kept, or the heap is full (its length is `count`) and `x`'s
magnitude is at most the magnitude of the heap's minimum (its head). -/
def covered (count : ℕ) (heap : List Entry) (x : Entry) : Prop :=
  x ∈ heap ∨ ∃ top rest, heap = top :: rest ∧ heap.length = count ∧ x.1 ≤ top.1

theorem update_heap_ok_cases {count : ℕ} {heap heap' : List Entry} {item : Entry}
    (h : update_heap count heap item = .ok heap') :
    (item ∈ heap ∧ heap' = heap) ∨
    (item ∉ heap ∧ heap.length < count ∧ heap' = hpush item heap) ∨
    (∃ top rest, heap = top :: rest ∧ item ∉ heap ∧ ¬ heap.length < count ∧
      top.1 < item.1 ∧ heap' = hpush item rest) ∨
    (∃ top rest, heap = top :: rest ∧ item ∉ heap ∧ ¬ heap.length < count ∧
      ¬ top.1 < item.1 ∧ heap' = heap) := by
  unfold update_heap at h
  by_cases hin : in_heap heap item = true
  · rw [if_pos hin] at h
    exact Or.inl ⟨in_heap_iff.mp hin, (Except.ok.inj h).symm⟩
  · have hnotin : item ∉ heap := fun hm => hin (in_heap_iff.mpr hm)
    rw [if_neg hin] at h
    by_cases hlen : heap.length < count
    · rw [if_pos hlen] at h
      exact Or.inr (Or.inl ⟨hnotin, hlen, (Except.ok.inj h).symm⟩)
    · rw [if_neg hlen] at h
      cases heap with
      | nil => exact Except.noConfusion h
      | cons top rest =>
        have h2 : (if item.1 > top.1 then Except.ok (ε := String) (hpushpop (top :: rest) item)
            else Except.ok (top :: rest)) = Except.ok heap' := h
        by_cases htop : item.1 > top.1
        · rw [if_pos htop] at h2
          have hred : hpushpop (top :: rest) item = hpush item rest := by
            simp only [hpushpop]
            rw [if_pos (show entlt top item from Or.inl htop)]
          refine Or.inr (Or.inr (Or.inl ⟨top, rest, rfl, hnotin, hlen, htop, ?_⟩))
          exact (Except.ok.inj h2).symm.trans hred
        · rw [if_neg htop] at h2
          exact Or.inr (Or.inr (Or.inr
            ⟨top, rest, rfl, hnotin, hlen, htop, (Except.ok.inj h2).symm⟩))

theorem update_heap_inv {count : ℕ} {heap heap' : List Entry} {item : Entry}
    (hs : List.Pairwise entlt heap) (hlen : heap.length ≤ count)
    (h : update_heap count heap item = .ok heap') :
    List.Pairwise entlt heap' ∧ heap'.length ≤ count ∧ covered count heap' item ∧
      ∀ y, covered count heap y → covered count heap' y := by
  rcases update_heap_ok_cases h with
    ⟨hin, rfl⟩ | ⟨hnin, hlt, rfl⟩ |
    ⟨top, rest, rfl, hnin, hnlt, htop, rfl⟩ | ⟨top, rest, rfl, hnin, hnlt, htop, rfl⟩
  · exact ⟨hs, hlen, Or.inl hin, fun y hy => hy⟩
  · refine ⟨hpush_sorted hs hnin, ?_, Or.inl (hpush_mem.mpr (Or.inl rfl)), ?_⟩
    · rw [hpush_length]
      omega
    · intro y hy
      rcases hy with hy | ⟨t0, r0, _, hfull, _⟩
      · exact Or.inl (hpush_mem.mpr (Or.inr hy))
      · exact absurd hfull (Nat.ne_of_lt hlt)
  · have hfull : (top :: rest).length = count := le_antisymm hlen (not_lt.mp hnlt)
    have hpc := List.pairwise_cons.mp hs
    have hninr : item ∉ rest := fun hm => hnin (List.mem_cons_of_mem top hm)
    have hsorted' := hpush_sorted hpc.2 hninr
    have hlen' : (hpush item rest).length = count := by
      rw [hpush_length]
      simpa using hfull
    have hbound : ∀ z ∈ hpush item rest, top.1 ≤ z.1 := by
      intro z hz
      rcases hpush_mem.mp hz with rfl | hz'
      · exact le_of_lt htop
      · exact entlt_fst_le (hpc.1 z hz')
    obtain ⟨top', rest', heq⟩ : ∃ a l, hpush item rest = a :: l := by
      cases hh : hpush item rest with
      | nil =>
        have := @hpush_length item rest
        rw [hh] at this
        simp at this
      | cons a l => exact ⟨a, l, rfl⟩
    have htop' : top.1 ≤ top'.1 := hbound top' (heq ▸ List.mem_cons_self top' rest')
    refine ⟨hsorted', le_of_eq hlen', Or.inl (hpush_mem.mpr (Or.inl rfl)), ?_⟩
    intro y hy
    rcases hy with hy | ⟨t0, r0, e0, hfull0, hb⟩
    · rcases List.mem_cons.mp hy with rfl | hy'
      · exact Or.inr ⟨top', rest', heq, hlen', htop'⟩
      · exact Or.inl (hpush_mem.mpr (Or.inr hy'))
    · obtain ⟨rfl, rfl⟩ : top = t0 ∧ rest = r0 := by
        have := List.cons.inj e0
        exact ⟨this.1, this.2⟩
      exact Or.inr ⟨top', rest', heq, hlen', le_trans hb htop'⟩
  · have hfull : (top :: rest).length = count := le_antisymm hlen (not_lt.mp hnlt)
    exact ⟨hs, hlen, Or.inr ⟨top, rest, rfl, hfull, not_lt.mp htop⟩, fun y hy => hy⟩

theorem apply_change_inv {count : ℕ} {st st' : List Entry × List Entry}
    {desc : String} {change : ℚ}
    (hs₁ : List.Pairwise entlt st.1) (hs₂ : List.Pairwise entlt st.2)
    (hl₁ : st.1.length ≤ count) (hl₂ : st.2.length ≤ count)
    (h : apply_change count st desc change = .ok st') :
    (List.Pairwise entlt st'.1 ∧ List.Pairwise entlt st'.2 ∧
      st'.1.length ≤ count ∧ st'.2.length ≤ count) ∧
    (∀ y, covered count st.1 y → covered count st'.1 y) ∧
    (∀ y, covered count st.2 y → covered count st'.2 y) ∧
    (0 < change → covered count st'.1 (change, desc)) ∧
    (change < 0 → covered count st'.2 (-change, desc)) := by
  unfold apply_change at h
  rcases lt_trichotomy (0 : ℚ) change with hpos | hzero | hneg
  · rw [if_pos hpos, if_neg (lt_asymm hpos)] at h
    cases hu : update_heap count st.1 (change, desc) with
    | error e =>
      rw [hu] at h
      exact Except.noConfusion h
    | ok inc =>
      rw [hu] at h
      have h' : Except.ok (ε := String) (inc, st.2) = .ok st' := h
      obtain rfl := (Except.ok.inj h').symm
      obtain ⟨ha, hb, hc, hd⟩ := update_heap_inv hs₁ hl₁ hu
      exact ⟨⟨ha, hs₂, hb, hl₂⟩, hd, fun y hy => hy,
        fun _ => hc, fun hn => absurd hn (lt_asymm hpos)⟩
  · rw [if_neg (hzero ▸ lt_irrefl 0), if_neg (hzero ▸ lt_irrefl 0)] at h
    have h' : Except.ok (ε := String) (st.1, st.2) = .ok st' := h
    obtain rfl := (Except.ok.inj h').symm
    exact ⟨⟨hs₁, hs₂, hl₁, hl₂⟩, fun y hy => hy, fun y hy => hy,
      fun hp => absurd hp (hzero ▸ lt_irrefl 0),
      fun hn => absurd hn (hzero ▸ lt_irrefl 0)⟩
  · rw [if_neg (lt_asymm hneg), if_pos hneg] at h
    have h' : (match update_heap count st.2 (-change, desc) with
      | .error e => Except.error e
      | .ok dec => Except.ok (st.1, dec)) = .ok st' := h
    cases hu : update_heap count st.2 (-change, desc) with
    | error e =>
      rw [hu] at h'
      exact Except.noConfusion h'
    | ok dec =>
      rw [hu] at h'
      obtain rfl := (Except.ok.inj h').symm
      obtain ⟨ha, hb, hc, hd⟩ := update_heap_inv hs₂ hl₂ hu
      exact ⟨⟨hs₁, ha, hl₁, hb⟩, fun y hy => hy, hd,
        fun hp => absurd hp (lt_asymm hneg), fun _ => hc⟩

theorem step_ok_inv {year : ℤ} {count : ℕ} {st st' : List Entry × List Entry}
    {entry : Record}
    (hs₁ : List.Pairwise entlt st.1) (hs₂ : List.Pairwise entlt st.2)
    (hl₁ : st.1.length ≤ count) (hl₂ : st.2.length ≤ count)
    (h : build_heaps_step year count st entry = .ok st') :
    (List.Pairwise entlt st'.1 ∧ List.Pairwise entlt st'.2 ∧
      st'.1.length ≤ count ∧ st'.2.length ≤ count) ∧
    (∀ y, covered count st.1 y → covered count st'.1 y) ∧
    (∀ y, covered count st.2 y → covered count st'.2 y) ∧
    (∀ np op, ends_with entry.effective_date (toString year) = true →
      py_float? entry.new_price = some np → py_float? entry.old_price = some op →
      (0 < np - op → covered count st'.1 (np - op, entry.ndc_desc)) ∧
      (np - op < 0 → covered count st'.2 (-(np - op), entry.ndc_desc))) := by
  unfold build_heaps_step at h
  by_cases hy : ends_with entry.effective_date (toString year) = true
  · rw [if_pos hy] at h
    cases hn : py_float? entry.new_price with
    | none =>
      rw [hn] at h
      exact Except.noConfusion h
    | some newp =>
      rw [hn] at h
      cases ho : py_float? entry.old_price with
      | none =>
        rw [ho] at h
        exact Except.noConfusion h
      | some oldp =>
        rw [ho] at h
        have h' : apply_change count st entry.ndc_desc (newp - oldp) = .ok st' := h
        obtain ⟨hinv, ht₁, ht₂, hp, hm⟩ := apply_change_inv hs₁ hs₂ hl₁ hl₂ h'
        refine ⟨hinv, ht₁, ht₂, ?_⟩
        intro np op _ hn' ho'
        obtain rfl := Option.some.inj hn'
        obtain rfl := Option.some.inj ho'
        exact ⟨hp, hm⟩
  · rw [if_neg hy] at h
    obtain rfl := Except.ok.inj h
    exact ⟨⟨hs₁, hs₂, hl₁, hl₂⟩, fun y hy' => hy', fun y hy' => hy',
      fun np op hy' _ _ => absurd hy' hy⟩

theorem loop_ok_inv {year : ℤ} {count : ℕ} {rows : List Record} :
    ∀ {st st' : List Entry × List Entry},
      List.Pairwise entlt st.1 → List.Pairwise entlt st.2 →
      st.1.length ≤ count → st.2.length ≤ count →
      build_heaps_loop year count rows st = .ok st' →
      (List.Pairwise entlt st'.1 ∧ List.Pairwise entlt st'.2 ∧
        st'.1.length ≤ count ∧ st'.2.length ≤ count) ∧
      (∀ y, covered count st.1 y → covered count st'.1 y) ∧
      (∀ y, covered count st.2 y → covered count st'.2 y) ∧
      (∀ entry ∈ rows, ∀ np op,
        ends_with entry.effective_date (toString year) = true →
        py_float? entry.new_price = some np →
        py_float? entry.old_price = some op →
        (0 < np - op → covered count st'.1 (np - op, entry.ndc_desc)) ∧
        (np - op < 0 → covered count st'.2 (-(np - op), entry.ndc_desc))) := by
  induction rows with
  | nil =>
    intro st st' hs₁ hs₂ hl₁ hl₂ h
    obtain rfl := Except.ok.inj h
    exact ⟨⟨hs₁, hs₂, hl₁, hl₂⟩, fun y hy => hy, fun y hy => hy,
      fun entry he => absurd he (List.not_mem_nil entry)⟩
  | cons r rest ih =>
    intro st st' hs₁ hs₂ hl₁ hl₂ h
    unfold build_heaps_loop at h
    cases hstep : build_heaps_step year count st r with
    | error e =>
      rw [hstep] at h
      exact Except.noConfusion h
    | ok st₁ =>
      rw [hstep] at h
      have h' : build_heaps_loop year count rest st₁ = .ok st' := h
      obtain ⟨⟨ha₁, ha₂, hb₁, hb₂⟩, ht₁, ht₂, hr⟩ := step_ok_inv hs₁ hs₂ hl₁ hl₂ hstep
      obtain ⟨hinv, hu₁, hu₂, hrest⟩ := ih ha₁ ha₂ hb₁ hb₂ h'
      refine ⟨hinv, fun y hy => hu₁ y (ht₁ y hy), fun y hy => hu₂ y (ht₂ y hy), ?_⟩
      intro entry he np op hy hn ho
      rcases List.mem_cons.mp he with rfl | he'
      · obtain ⟨hp, hm⟩ := hr np op hy hn ho
        exact ⟨fun hc => hu₁ _ (hp hc), fun hc => hu₂ _ (hm hc)⟩
      · exact hrest entry he' np op hy hn ho

/-- The loop invariant instantiated at the empty initial heaps of
`build_heaps_from_file`. -/
theorem build_heaps_ok_inv {rows : List Record} {year : ℤ} {count : ℕ}
    {inc dec : List Entry}
    (h : build_heaps_from_file rows year count = .ok (inc, dec)) :
    (List.Pairwise entlt inc ∧ List.Pairwise entlt dec ∧
      inc.length ≤ count ∧ dec.length ≤ count) ∧
    (∀ entry ∈ rows, ∀ np op,
      ends_with entry.effective_date (toString year) = true →
      py_float? entry.new_price = some np →
      py_float? entry.old_price = some op →
      (0 < np - op → covered count inc (np - op, entry.ndc_desc)) ∧
      (np - op < 0 → covered count dec (-(np - op), entry.ndc_desc))) := by
  have h' : build_heaps_loop year count rows ([], []) = .ok (inc, dec) := h
  obtain ⟨hinv, -, -, hrec⟩ :=
    loop_ok_inv (List.Pairwise.nil) (List.Pairwise.nil) (Nat.zero_le count)
      (Nat.zero_le count) h'
  exact ⟨hinv, hrec⟩

/-! ### Helper facts shared by the claim theorems -/

/-- In a heap sorted by the tuple order, the head's magnitude is the
smallest kept magnitude. -/
theorem sorted_head_min {top : Entry} {rest : List Entry}
    (hs : List.Pairwise entlt (top :: rest)) : ∀ y ∈ top :: rest, top.1 ≤ y.1 := by
  intro y hy
  rcases List.mem_cons.mp hy with rfl | hy'
  · exact le_refl _
  · exact entlt_fst_le ((List.pairwise_cons.mp hs).1 y hy')

theorem pad_two_length {n : ℕ} (h : n < 100) : (pad_two n).length = 2 := by
  have hball : ∀ m : ℕ, m < 100 → (pad_two m).length = 2 := by decide
  exact hball n h

/-- `generate_partial_report` for the increases direction, with the type
constant and the empty sign prefix resolved. -/
theorem generate_partial_report_increases (heap : List Entry) (year : ℤ) (count : ℕ) :
    generate_partial_report heap year count REPORT_TYPE_INCREASES
      = "Top " ++ toString count ++ " NADAC per unit price " ++ "increases" ++ " of "
        ++ toString year ++ ":" ++ "\n"
        ++ String.join ((heap.map
            (fun e => "$" ++ format_change e.1 ++ ": " ++ e.2 ++ "\n")).reverse) := by
  unfold generate_partial_report
  rw [if_neg (by decide : ¬ (REPORT_TYPE_INCREASES = REPORT_TYPE_DECREASES))]
  rfl

/-- `generate_partial_report` for the decreases direction, with the type
constant and the minus sign prefix resolved. -/
theorem generate_partial_report_decreases (heap : List Entry) (year : ℤ) (count : ℕ) :
    generate_partial_report heap year count REPORT_TYPE_DECREASES
      = "Top " ++ toString count ++ " NADAC per unit price " ++ "decreases" ++ " of "
        ++ toString year ++ ":" ++ "\n"
        ++ String.join ((heap.map
            (fun e => "-" ++ "$" ++ format_change e.1 ++ ": " ++ e.2 ++ "\n")).reverse) := by
  unfold generate_partial_report
  rw [if_pos rfl]
  rfl

/-- A step that raises `ValueError` (year filter passed, a price field that
does not parse) from any state. -/
theorem step_value_error {year : ℤ} {count : ℕ} {r : Record}
    (hy : ends_with r.effective_date (toString year) = true)
    (hbad : py_float? r.old_price = none ∨ py_float? r.new_price = none) :
    ∀ st, build_heaps_step year count st r
      = .error "ValueError: could not convert string to float" := by
  intro st
  unfold build_heaps_step
  rw [if_pos hy]
  rcases hbad with hbad | hbad
  · cases hn : py_float? r.new_price with
    | none => rfl
    | some newp => rw [hbad]
  · rw [hbad]

/-- A record whose step fails from every state makes the whole loop fail. -/
theorem loop_error_of_mem {year : ℤ} {count : ℕ} {rows : List Record} {r : Record}
    {msg : String} (hr : r ∈ rows)
    (hstep : ∀ st, build_heaps_step year count st r = .error msg) :
    ∀ st, ∃ e, build_heaps_loop year count rows st = .error e := by
  induction rows with
  | nil => exact absurd hr (List.not_mem_nil r)
  | cons a rest ih =>
    intro st
    unfold build_heaps_loop
    cases hstep' : build_heaps_step year count st a with
    | error e => exact ⟨e, rfl⟩
    | ok st₁ =>
      rcases List.mem_cons.mp hr with rfl | hr'
      · rw [hstep st] at hstep'
        exact Except.noConfusion hstep'
      · exact ih hr' st₁

/-! ### Sample records used by the witnesses -/

def wrow_A : Record := ⟨"ALPHA", "0001", "1", "6", "c", "p", "r", "s", "e", "06/15/2020"⟩

def wrow_B : Record := ⟨"BRAVO", "0002", "1", "3", "c", "p", "r", "s", "e", "12/31/2020"⟩

def wrow_C : Record := ⟨"CHARLIE", "0003", "5", "1", "c", "p", "r", "s", "e", "01/01/2020"⟩

def wrow_D : Record := ⟨"DELTA", "0004", "2", "1", "c", "p", "r", "s", "e", "03/03/2020"⟩

def wrow_E : Record := ⟨"EPSILON", "0005", "1", "6", "c", "p", "r", "s", "e", "06/15/2020"⟩

def rows_W : List Record := [wrow_A, wrow_B, wrow_C, wrow_D]

/-! ### The claims -/

/-- C1: the claim says `generate_nadac_top_price_change_report(year, 0)`
returns the two headers with empty bodies and raises no exception regardless
of how many records match the year filter. The code satisfies this only for
a stream with no eligible record; as soon as one record matches the year and
has a nonzero change, `len(heap) < 0` is false and the code reads
`increases_heap[0]` on an empty heap, raising `IndexError`. This theorem
evaluates the code at both inputs. -/
theorem C1_count_zero_crash :
    generate_nadac_top_price_change_report [] 2020 0
      = .ok ("Top 0 NADAC per unit price increases of 2020:\n\nTop 0 NADAC per unit price decreases of 2020:\n") ∧
    generate_nadac_top_price_change_report
      [⟨"SOME DRUG 10MG TABLET", "00000000000", "1", "2", "c", "p", "r", "s", "e", "01/01/2020"⟩]
      2020 0
      = .error "IndexError: list index out of range" :=
  ⟨rfl, rfl⟩

/-- C2: after processing all records, every eligible record (year filter
passed, prices parsed, nonzero change) whose candidate pair is not in the
final selection of its direction is bounded: the selection is nonempty with
head `top` (the minimum of the sorted selection, hence the smallest kept
magnitude), and the record's signed change (for increases) or magnitude
(for decreases) is at most `top.1`. -/
theorem C2_omitted_entries_bounded {rows : List Record} {year : ℤ} {count : ℕ}
    {inc dec : List Entry} {r : Record} {np op : ℚ}
    (hb : build_heaps_from_file rows year count = .ok (inc, dec))
    (hr : r ∈ rows)
    (hy : ends_with r.effective_date (toString year) = true)
    (hn : py_float? r.new_price = some np)
    (ho : py_float? r.old_price = some op) :
    (0 < np - op → (np - op, r.ndc_desc) ∉ inc →
      ∃ top rest, inc = top :: rest ∧ (∀ y ∈ inc, top.1 ≤ y.1) ∧ np - op ≤ top.1) ∧
    (np - op < 0 → (-(np - op), r.ndc_desc) ∉ dec →
      ∃ top rest, dec = top :: rest ∧ (∀ y ∈ dec, top.1 ≤ y.1) ∧ -(np - op) ≤ top.1) := by
  obtain ⟨⟨hs₁, hs₂, -, -⟩, hrec⟩ := build_heaps_ok_inv hb
  obtain ⟨hp, hm⟩ := hrec r hr np op hy hn ho
  constructor
  · intro hc hnotin
    rcases hp hc with hmem | ⟨top, rest, he, -, hbnd⟩
    · exact absurd hmem hnotin
    · exact ⟨top, rest, he, he ▸ sorted_head_min (he ▸ hs₁), hbnd⟩
  · intro hc hnotin
    rcases hm hc with hmem | ⟨top, rest, he, -, hbnd⟩
    · exact absurd hmem hnotin
    · exact ⟨top, rest, he, he ▸ sorted_head_min (he ▸ hs₂), hbnd⟩

/-- C2 witness: with `count = 1` the record `BRAVO` (change `3 - 1 = 2`) is
omitted and bounded by the kept minimum `5`. -/
theorem C2_witness :
    ∃ top rest, ([((5 : ℚ), "ALPHA")] : List Entry) = top :: rest ∧
      (∀ y ∈ ([((5 : ℚ), "ALPHA")] : List Entry), top.1 ≤ y.1) ∧ (3 : ℚ) - 1 ≤ top.1 :=
  (@C2_omitted_entries_bounded rows_W 2020 1 [((5 : ℚ), "ALPHA")]
    [((4 : ℚ), "CHARLIE")] wrow_B 3 1 (by rfl)
    (List.mem_cons_of_mem _ (List.mem_cons_self _ _))
    (by rfl) (by rfl) (by rfl)).1 (by decide) (by decide)

/-- C3: for one direction's selection (the shared block `update_heap`):
a non-duplicate candidate is inserted unconditionally when the selection
holds fewer than `count` entries; when the selection is full (`length =
count`, head `top` being the minimum of the sorted selection), a candidate
with magnitude strictly above `top.1` replaces the evicted minimum in one
`heappushpop` step, and a candidate with magnitude at most `top.1` is
discarded leaving the selection unchanged. -/
theorem C3_bounded_selection_step (count : ℕ) (heap : List Entry) (item : Entry)
    (hs : List.Pairwise entlt heap)
    (hdup : in_heap heap item = false) :
    (heap.length < count → update_heap count heap item = .ok (hpush item heap)) ∧
    (∀ top rest, heap = top :: rest → heap.length = count →
      (∀ y ∈ heap, top.1 ≤ y.1) ∧
      (top.1 < item.1 → update_heap count heap item = .ok (hpush item rest)) ∧
      (item.1 ≤ top.1 → update_heap count heap item = .ok heap)) := by
  have hnot : ¬ (in_heap heap item = true) := by simp [hdup]
  constructor
  · intro hlt
    unfold update_heap
    rw [if_neg hnot, if_pos hlt]
  · intro top rest heq hfull
    subst heq
    have hnlt : ¬ (top :: rest).length < count := by omega
    refine ⟨sorted_head_min hs, ?_, ?_⟩
    · intro hlt
      unfold update_heap
      rw [if_neg hnot, if_neg hnlt]
      show (if item.1 > top.1 then Except.ok (ε := String) (hpushpop (top :: rest) item)
          else Except.ok (top :: rest)) = .ok (hpush item rest)
      rw [if_pos hlt]
      simp only [hpushpop]
      rw [if_pos (show entlt top item from Or.inl hlt)]
    · intro hle
      unfold update_heap
      rw [if_neg hnot, if_neg hnlt]
      show (if item.1 > top.1 then Except.ok (ε := String) (hpushpop (top :: rest) item)
          else Except.ok (top :: rest)) = .ok (top :: rest)
      rw [if_neg (not_lt.mpr hle)]

/-- C3 witness: a full selection of capacity one; the candidate `ZETA` with
magnitude `7 > 5` evicts the minimum and is inserted in one step. -/
theorem C3_witness :
    update_heap 1 [((5 : ℚ), "ALPHA")] ((7 : ℚ), "ZETA")
      = .ok (hpush ((7 : ℚ), "ZETA") []) :=
  ((C3_bounded_selection_step 1 [((5 : ℚ), "ALPHA")] ((7 : ℚ), "ZETA")
    (by simp) (by decide)).2 ((5 : ℚ), "ALPHA") [] rfl rfl).2.1 (by decide)

/-- C4: a record is included in processing exactly when its effective date
string ends with the decimal representation of the target year. A record
failing the suffix test is skipped silently — the step returns the state
unchanged with no error, even when its price fields are unparseable (they
are never read). A record passing the test is genuinely processed: with an
unparseable price it raises `ValueError`. -/
theorem C4_year_suffix_filter (year : ℤ) (count : ℕ) (st : List Entry × List Entry)
    (r : Record) :
    (ends_with r.effective_date (toString year) = false →
      build_heaps_step year count st r = .ok st) ∧
    (ends_with r.effective_date (toString year) = true →
      py_float? r.new_price = none →
      build_heaps_step year count st r
        = .error "ValueError: could not convert string to float") := by
  constructor
  · intro hy
    unfold build_heaps_step
    rw [if_neg (by simp [hy])]
  · intro hy hn
    exact step_value_error hy (Or.inr hn) st

/-- C4 witness: a 2019-dated record with unparseable prices is skipped
silently for year 2020, and an empty effective date is likewise excluded. -/
theorem C4_witness :
    build_heaps_step 2020 10 ([], [])
      ⟨"X", "9", "oops", "oops", "c", "p", "r", "s", "e", "01/01/2019"⟩ = .ok ([], []) ∧
    build_heaps_step 2020 10 ([], [])
      ⟨"Y", "9", "1", "2", "c", "p", "r", "s", "e", ""⟩ = .ok ([], []) :=
  ⟨(C4_year_suffix_filter 2020 10 ([], [])
      ⟨"X", "9", "oops", "oops", "c", "p", "r", "s", "e", "01/01/2019"⟩).1 (by rfl),
   (C4_year_suffix_filter 2020 10 ([], [])
      ⟨"Y", "9", "1", "2", "c", "p", "r", "s", "e", ""⟩).1 (by rfl)⟩

/-- C5: the two final selections hold no duplicate entries (this holds at
every point of the accumulation: any intermediate state is the result of
`build_heaps_from_file` on a prefix of the stream, and the statement is
universally quantified over the stream); and a candidate already present in
a selection is dropped by `update_heap` without changing the selection. -/
theorem C5_no_duplicate_entries {rows : List Record} {year : ℤ} {count : ℕ}
    {inc dec : List Entry}
    (hb : build_heaps_from_file rows year count = .ok (inc, dec))
    (heap : List Entry) (item : Entry) :
    inc.Nodup ∧ dec.Nodup ∧
    (in_heap heap item = true → update_heap count heap item = .ok heap) := by
  obtain ⟨⟨hs₁, hs₂, -, -⟩, -⟩ := build_heaps_ok_inv hb
  refine ⟨List.Pairwise.imp entlt_ne hs₁, List.Pairwise.imp entlt_ne hs₂, ?_⟩
  intro hin
  unfold update_heap
  rw [if_pos hin]

/-- C5 witness: dropping an exact duplicate of the kept `ALPHA` entry leaves
the selection unchanged. -/
theorem C5_witness :
    update_heap 1 [((5 : ℚ), "ALPHA")] ((5 : ℚ), "ALPHA") = .ok [((5 : ℚ), "ALPHA")] :=
  (@C5_no_duplicate_entries rows_W 2020 1 [((5 : ℚ), "ALPHA")]
    [((4 : ℚ), "CHARLIE")] (by rfl) [((5 : ℚ), "ALPHA")] ((5 : ℚ), "ALPHA")).2.2
    (by decide)

/-- C6: each selection holds at most `count` entries. As with C5, universal
quantification over the stream covers every step of the accumulation. -/
theorem C6_selection_size_bounded {rows : List Record} {year : ℤ} {count : ℕ}
    {inc dec : List Entry}
    (hb : build_heaps_from_file rows year count = .ok (inc, dec)) :
    inc.length ≤ count ∧ dec.length ≤ count := by
  obtain ⟨⟨-, -, h₁, h₂⟩, -⟩ := build_heaps_ok_inv hb
  exact ⟨h₁, h₂⟩

/-- C6 witness: four eligible records at `count = 2` keep two entries per
direction. -/
theorem C6_witness :
    ([((2 : ℚ), "BRAVO"), ((5 : ℚ), "ALPHA")] : List Entry).length ≤ 2 ∧
    ([((1 : ℚ), "DELTA"), ((4 : ℚ), "CHARLIE")] : List Entry).length ≤ 2 :=
  @C6_selection_size_bounded rows_W 2020 2 [((2 : ℚ), "BRAVO"), ((5 : ℚ), "ALPHA")]
    [((1 : ℚ), "DELTA"), ((4 : ℚ), "CHARLIE")] (by rfl)

/-- C7: the rendered body of each section lists entries in non-increasing
magnitude order: the drain (`heappop` until empty) yields the ascending
sorted selection, and the renderer reverses the drained line list before
emission, so the emission order of entries is the reversed selection, whose
magnitudes are non-increasing. -/
theorem C7_descending_magnitude_order {rows : List Record} {year : ℤ} {count : ℕ}
    {inc dec : List Entry}
    (hb : build_heaps_from_file rows year count = .ok (inc, dec)) :
    List.Pairwise (fun a b : Entry => b.1 ≤ a.1) inc.reverse ∧
    List.Pairwise (fun a b : Entry => b.1 ≤ a.1) dec.reverse ∧
    generate_partial_report inc year count REPORT_TYPE_INCREASES
      = "Top " ++ toString count ++ " NADAC per unit price " ++ "increases" ++ " of "
        ++ toString year ++ ":" ++ "\n"
        ++ String.join (inc.reverse.map
            (fun e => "$" ++ format_change e.1 ++ ": " ++ e.2 ++ "\n")) := by
  obtain ⟨⟨hs₁, hs₂, -, -⟩, -⟩ := build_heaps_ok_inv hb
  refine ⟨?_, ?_, ?_⟩
  · exact List.pairwise_reverse.mpr (hs₁.imp entlt_fst_le)
  · exact List.pairwise_reverse.mpr (hs₂.imp entlt_fst_le)
  · rw [generate_partial_report_increases, List.map_reverse]

/-- C7 witness: the increases emission order at `count = 2` is
`ALPHA (5.00)` before `BRAVO (2.00)`. -/
theorem C7_witness :
    List.Pairwise (fun a b : Entry => b.1 ≤ a.1)
      ([((2 : ℚ), "BRAVO"), ((5 : ℚ), "ALPHA")] : List Entry).reverse :=
  (@C7_descending_magnitude_order rows_W 2020 2 [((2 : ℚ), "BRAVO"), ((5 : ℚ), "ALPHA")]
    [((1 : ℚ), "DELTA"), ((4 : ℚ), "CHARLIE")] (by rfl)).1

/-- C8: the report string is exactly: the increases header
`Top {count} NADAC per unit price increases of {year}:`, a line break, the
increases body lines (each `$`, the 2-decimal magnitude, `: `, the
description, a line break), one further line break (the blank separator
line), then the decreases section in the same shape with the `-` sign
prefix. The second conjunct pins the fixed 2-decimal formatting: every
formatted magnitude is an integer part, a point, and exactly two digits. -/
theorem C8_report_structure (rows : List Record) (year : ℤ) (count : ℕ)
    (inc dec : List Entry)
    (hb : build_heaps_from_file rows year count = .ok (inc, dec)) :
    generate_nadac_top_price_change_report rows year count
      = .ok ("Top " ++ toString count ++ " NADAC per unit price " ++ "increases" ++ " of "
          ++ toString year ++ ":" ++ "\n"
          ++ String.join ((inc.map
              (fun e => "$" ++ format_change e.1 ++ ": " ++ e.2 ++ "\n")).reverse)
          ++ "\n"
          ++ ("Top " ++ toString count ++ " NADAC per unit price " ++ "decreases" ++ " of "
          ++ toString year ++ ":" ++ "\n"
          ++ String.join ((dec.map
              (fun e => "-" ++ "$" ++ format_change e.1 ++ ": " ++ e.2 ++ "\n")).reverse))) ∧
    (∀ q : ℚ, ∃ whole frac : String,
      format_change q = whole ++ "." ++ frac ∧ frac.length = 2) := by
  constructor
  · unfold generate_nadac_top_price_change_report
    rw [hb]
    show Except.ok (generate_partial_report inc year count REPORT_TYPE_INCREASES
        ++ "\n" ++ generate_partial_report dec year count REPORT_TYPE_DECREASES) = _
    rw [generate_partial_report_increases, generate_partial_report_decreases]
  · intro q
    exact ⟨_, _, rfl, pad_two_length (Nat.mod_lt _ (by norm_num))⟩

/-- C8 witness: the full report for the four sample records at
`count = 2`, `year = 2020`. -/
theorem C8_witness :
    generate_nadac_top_price_change_report rows_W 2020 2
      = .ok "Top 2 NADAC per unit price increases of 2020:\n$5.00: ALPHA\n$2.00: BRAVO\n\nTop 2 NADAC per unit price decreases of 2020:\n-$4.00: CHARLIE\n-$1.00: DELTA\n" :=
  (C8_report_structure rows_W 2020 2
    [((2 : ℚ), "BRAVO"), ((5 : ℚ), "ALPHA")]
    [((1 : ℚ), "DELTA"), ((4 : ℚ), "CHARLIE")] (by rfl)).1

/-- C9 counterexample: the claim says an unparseable price field aborts
report generation for every record in the stream. But the year filter runs
before the prices are parsed: a record with unparseable `old_price` and a
non-matching effective date is skipped silently and a full report is
produced. -/
theorem C9_counterexample :
    py_float? "abc" = none ∧
    generate_nadac_top_price_change_report
      [⟨"X", "9", "abc", "2", "c", "p", "r", "s", "e", "01/01/2019"⟩] 2020 10
      = .ok ("Top 10 NADAC per unit price increases of 2020:\n\nTop 10 NADAC per unit price decreases of 2020:\n") :=
  ⟨rfl, rfl⟩

/-- C9 (amended): for every record that passes the year filter, an
unparseable `old_price` or `new_price` makes report generation raise
immediately: the whole run aborts with an error and no report string is
produced. -/
theorem C9_parse_error_aborts {rows : List Record} {year : ℤ} {count : ℕ}
    {r : Record} (hr : r ∈ rows)
    (hy : ends_with r.effective_date (toString year) = true)
    (hbad : py_float? r.old_price = none ∨ py_float? r.new_price = none) :
    ∃ e, generate_nadac_top_price_change_report rows year count = .error e := by
  obtain ⟨e, he⟩ := loop_error_of_mem hr (step_value_error hy hbad) ([], [])
  refine ⟨e, ?_⟩
  unfold generate_nadac_top_price_change_report
  have hb : build_heaps_from_file rows year count = .error e := he
  rw [hb]

/-- C9 witness: a 2020-dated record with unparseable `old_price` aborts the
2020 report. -/
theorem C9_witness :
    ∃ e, generate_nadac_top_price_change_report
      [⟨"X", "9", "abc", "2", "c", "p", "r", "s", "e", "01/01/2020"⟩] 2020 10
      = .error e :=
  C9_parse_error_aborts (List.mem_cons_self _ _) (by rfl) (Or.inl (by rfl))

/-- C10: among kept entries with equal magnitudes, the rendered order within
a section is the descending lexicographic order of the description strings
(Python string `<` on the reversed drain order): for any two entries at
equal magnitude, the later-emitted description compares strictly below the
earlier-emitted one. -/
theorem C10_tie_order_by_description {rows : List Record} {year : ℤ} {count : ℕ}
    {inc dec : List Entry}
    (hb : build_heaps_from_file rows year count = .ok (inc, dec)) :
    List.Pairwise (fun a b : Entry => a.1 = b.1 → chars_lt b.2.data a.2.data = true)
      inc.reverse ∧
    List.Pairwise (fun a b : Entry => a.1 = b.1 → chars_lt b.2.data a.2.data = true)
      dec.reverse := by
  obtain ⟨⟨hs₁, hs₂, -, -⟩, -⟩ := build_heaps_ok_inv hb
  constructor
  · refine List.pairwise_reverse.mpr (hs₁.imp ?_)
    rintro a b (hlt | ⟨heq, hc⟩) habeq
    · exact absurd (habeq ▸ hlt) (lt_irrefl _)
    · exact hc
  · refine List.pairwise_reverse.mpr (hs₂.imp ?_)
    rintro a b (hlt | ⟨heq, hc⟩) habeq
    · exact absurd (habeq ▸ hlt) (lt_irrefl _)
    · exact hc

/-- C10 witness: `ALPHA` and `EPSILON` both have change `5`; the emission
order is `EPSILON` then `ALPHA`, the descending order of the descriptions. -/
theorem C10_witness :
    List.Pairwise (fun a b : Entry => a.1 = b.1 → chars_lt b.2.data a.2.data = true)
      ([((5 : ℚ), "ALPHA"), ((5 : ℚ), "EPSILON")] : List Entry).reverse :=
  (@C10_tie_order_by_description [wrow_A, wrow_E] 2020 2
    [((5 : ℚ), "ALPHA"), ((5 : ℚ), "EPSILON")] [] (by rfl)).1

end NadacReport
